import Mathlib

/-!
Verification of the itoa integer-to-decimal formatting library (src/lib.rs).

The Rust source writes decimal digits back-to-front into a caller-owned
40-byte scratch buffer of `MaybeUninit<u8>`, batching four digits at a time
through a 200-byte lookup table; 128-bit values are first reduced into
19-digit chunks by a division-by-10^19 helper.

The embedding below models raw memory reachable from the buffer's base
pointer as a total map from `Int` offsets to optionally-initialized bytes
(`none` = uninitialized), so that out-of-bounds pointer writes and stale
uninitialized bytes are representable, and translates each `write_to`
implementation statement by statement.  The `while` loop of the generic
algorithm is modelled with an explicit fuel argument instantiated with the
buffer length, which is always sufficient because each iteration removes
four decimal digits.
-/

set_option maxRecDepth 4000

namespace Itoa

/-- Raw memory viewed from the buffer's base pointer: a total map from
integer byte offsets to optionally-initialized bytes (`none` models
`MaybeUninit<u8>` that was never written). -/
abbrev Bytes : Type := Int → Option Nat

/-- A fresh, fully uninitialized memory, as produced by `Buffer::new`. -/
def uninitBytes : Bytes := fun _ => none

/-- Model of a single byte store `*buf_ptr.offset(i) = b`. -/
def setB (f : Bytes) (i : Int) (b : Nat) : Bytes :=
  fun j => if j = i then some b else f j

/-- The static lookup table `DEC_DIGITS_LUT` from src/lib.rs: the 200 ASCII
bytes of the two-digit decimal strings for 0..99. -/
def DEC_DIGITS_LUT : List Nat :=
  ("0001020304050607080910111213141516171819" ++
   "2021222324252627282930313233343536373839" ++
   "4041424344454647484950515253545556575859" ++
   "6061626364656667686970717273747576777879" ++
   "8081828384858687888990919293949596979899").toList.map Char.toNat

/-- Read of `*lut_ptr.offset(i)` (all reads in the source are in bounds). -/
def lutByte (i : Nat) : Nat := DEC_DIGITS_LUT.getD i 0

/-- Model of `ptr::copy_nonoverlapping(lut_ptr.offset(src), buf_ptr.offset(dst), 2)`. -/
def copy2 (f : Bytes) (dst : Int) (src : Nat) : Bytes :=
  setB (setB f dst (lutByte src)) (dst + 1) (lutByte (src + 1))

/-- Model of `ptr::write_bytes(buf_ptr.offset(i), b'0', count)`. -/
def zeroFill (f : Bytes) (i : Int) : Nat → Bytes
  | 0 => f
  | c + 1 => zeroFill (setB f i 48) (i + 1) c

/-- The `while n >= 10000` loop of the generic `write_to` (src/lib.rs lines
166-175): peel the four low decimal digits of `n` and write their ASCII
bytes at `curr-4 .. curr-1` via two lookup-table copies.  The loop is given
explicit fuel; each iteration divides `n` by 10000, so any `fuel` with
`n < 10000 ^ fuel` is enough. -/
def loop4 : Nat → Nat → Int → Bytes → Nat × Int × Bytes
  | 0, n, curr, f => (n, curr, f)
  | fuel + 1, n, curr, f =>
    if 10000 ≤ n then
      let rem := n % 10000
      let n2 := n / 10000
      let d1 := rem / 100 * 2
      let d2 := rem % 100 * 2
      let c2 := curr - 4
      loop4 fuel n2 c2 (copy2 (copy2 f c2 d1) (c2 + 2) d2)
    else (n, curr, f)

/-- The last statement of the generic `write_to` digit phase (src/lib.rs
lines 189-197): decode the final one or two characters. -/
def writeTail2 (n : Nat) (curr : Int) (f : Bytes) : Int × Bytes :=
  if n < 10 then (curr - 1, setB f (curr - 1) (48 + n))
  else (curr - 2, copy2 f (curr - 2) (n * 2))

/-- The post-loop part of the generic `write_to` (src/lib.rs lines 178-197):
`n` has at most four decimal digits left; write two more via the table when
`n >= 100`, then the final one or two digits. -/
def writeTail (n : Nat) (curr : Int) (f : Bytes) : Int × Bytes :=
  if 100 ≤ n then writeTail2 (n / 100) (curr - 2) (copy2 f (curr - 2) (n % 100 * 2))
  else writeTail2 n curr f

/-- The digit-writing body shared by every width: the batched loop (executed
only when the type is at least two bytes wide, `mem::size_of::<$t>() >= 2`)
followed by the tail.  Returns the final cursor and memory. -/
def writeDigits (szGe2 : Bool) (fuel n : Nat) (curr : Int) (f : Bytes) : Int × Bytes :=
  let s := if szGe2 then loop4 fuel n curr f else (n, curr, f)
  writeTail s.1 s.2.1 s.2.2

/-- The magnitude computation of `write_to`: `self as $conv_fn` is the
two's-complement image of `v` in `cb` bits, and for negative inputs the
magnitude is `(!(self as $conv_fn)).wrapping_add(1)`. -/
def magU (cb : Nat) (v : Int) : Nat :=
  if 0 ≤ v then (v % (2 ^ cb : Int)).toNat
  else (2 ^ cb - 1 - (v % (2 ^ cb : Int)).toNat + 1) % 2 ^ cb

/-- The final sign statement of every `write_to`: when the value was
negative, write a leading `'-'` (byte 45) and move the cursor back by one. -/
def signWrap (is_nonnegative : Bool) (r : Int × Bytes) : Int × Bytes :=
  if is_nonnegative then r else (r.1 - 1, setB r.2 (r.1 - 1) 45)

/-- Generic `IntegerPrivate::write_to` (src/lib.rs lines 150-207) for a type
whose conversion width is `cb` bits and whose buffer length is `L`:
compute the sign and magnitude, write the digits backwards from offset `L`,
and prepend `'-'` (byte 45) when the value is negative.  Returns the final
cursor (start of the written text) and the memory. -/
def write_to_gen (cb L : Nat) (szGe2 : Bool) (v : Int) (f : Bytes) : Int × Bytes :=
  signWrap (decide (0 ≤ v)) (writeDigits szGe2 L (magU cb v) (L : Int) f)

/-- Modelled from the spec: `src/lib.rs` declares `mod udiv128;` and calls
`udiv128::udivmod_1e19`, but the file `src/udiv128.rs` is not present in
the sources.  The spec's Wide Divisor contract is: given a 128-bit unsigned
dividend, return exactly the quotient and remainder of division by the
constant 10^19, with no error condition. -/
def udivmod_1e19 (n : Nat) : Nat × Nat := (n / 10 ^ 19, n % 10 ^ 19)

def I8_MAX_LEN : Nat := 4
def U8_MAX_LEN : Nat := 3
def I16_MAX_LEN : Nat := 6
def U16_MAX_LEN : Nat := 5
def I32_MAX_LEN : Nat := 11
def U32_MAX_LEN : Nat := 10
def I64_MAX_LEN : Nat := 20
def U64_MAX_LEN : Nat := 20
def U128_MAX_LEN : Nat := 39
def I128_MAX_LEN : Nat := 40

/-- The innermost conditional of the 128-bit `write_to` (src/lib.rs lines
276-286): if the quotient of the second division is nonzero, zero-fill the
middle chunk's leading zeros up to its fixed slot at `L - 38` and write the
at most one remaining digit. -/
def write128_stage3 (L : Nat) (q2 : Nat) (curr : Int) (f : Bytes) : Int × Bytes :=
  if q2 ≠ 0 then
    (((L : Int) - 38) - 1,
     setB (zeroFill f ((L : Int) - 38) ((curr - ((L : Int) - 38)).toNat))
       (((L : Int) - 38) - 1) (48 + q2))
  else (curr, f)

/-- The middle conditional of the 128-bit `write_to` (src/lib.rs lines
265-287): if the quotient of the first division is nonzero, zero-fill the
low chunk's leading zeros up to its fixed slot at `L - 19`, divide by 10^19
again, write that remainder with the 64-bit routine starting at the slot
boundary, and continue with the innermost conditional. -/
def write128_stage2 (L : Nat) (q1 : Nat) (curr : Int) (f : Bytes) : Int × Bytes :=
  if q1 ≠ 0 then
    let f1 := zeroFill f ((L : Int) - 19) ((curr - ((L : Int) - 19)).toNat)
    let s2 := writeDigits true U64_MAX_LEN (udivmod_1e19 q1).2 ((L : Int) - 19) f1
    write128_stage3 L (udivmod_1e19 q1).1 s2.1 s2.2
  else (curr, f)

/-- The 128-bit `IntegerPrivate::write_to` (src/lib.rs lines 248-297): peel
19-digit chunks with `udivmod_1e19` (at most twice), write each chunk with
the 64-bit routine (the recursive `rem.write_to(&mut *buf1)` call starts at
sub-buffer cursor `U64_MAX_LEN`, i.e. at the same absolute offset `curr`),
zero-fill the gap up to each non-leading chunk's fixed 19-wide slot, write
the at most one remaining digit, then the sign. -/
def write_to_128 (L : Nat) (is_nonnegative : Bool) (n : Nat) (f : Bytes) : Int × Bytes :=
  let s1 := writeDigits true U64_MAX_LEN (udivmod_1e19 n).2 (L : Int) f
  signWrap is_nonnegative (write128_stage2 L (udivmod_1e19 n).1 s1.1 s1.2)

/-- The closed (sealed) set of integer types implementing `Integer`.
`isize`/`usize` are instantiated at the 64-bit conversion, matching
`cfg(target_pointer_width = "64")`. -/
inductive IntTy
  | i8 | u8 | i16 | u16 | i32 | u32 | i64 | u64 | isize | usize | i128 | u128

/-- The `$max_len` buffer-length constant of each width. -/
def maxLen : IntTy → Nat
  | .i8 => I8_MAX_LEN
  | .u8 => U8_MAX_LEN
  | .i16 => I16_MAX_LEN
  | .u16 => U16_MAX_LEN
  | .i32 => I32_MAX_LEN
  | .u32 => U32_MAX_LEN
  | .i64 => I64_MAX_LEN
  | .u64 => U64_MAX_LEN
  | .isize => I64_MAX_LEN
  | .usize => U64_MAX_LEN
  | .i128 => I128_MAX_LEN
  | .u128 => U128_MAX_LEN

/-- The bit width of the `$conv_fn` conversion type (`u32`, `u64` or `u128`). -/
def convBits : IntTy → Nat
  | .i8 | .u8 | .i16 | .u16 | .i32 | .u32 => 32
  | .i64 | .u64 | .isize | .usize => 64
  | .i128 | .u128 => 128

/-- `mem::size_of::<$t>()`. -/
def sizeBytes : IntTy → Nat
  | .i8 | .u8 => 1
  | .i16 | .u16 => 2
  | .i32 | .u32 => 4
  | .i64 | .u64 | .isize | .usize => 8
  | .i128 | .u128 => 16

/-- Whether the width is signed. -/
def signedTy : IntTy → Bool
  | .i8 | .i16 | .i32 | .i64 | .isize | .i128 => true
  | .u8 | .u16 | .u32 | .u64 | .usize | .u128 => false

/-- The value-range width in bits of each type. -/
def bitsOf (t : IntTy) : Nat := 8 * sizeBytes t

/-- The smallest value of the type, as an integer. -/
def loVal (t : IntTy) : Int :=
  if signedTy t then -(2 ^ (bitsOf t - 1)) else 0

/-- One past the largest value of the type, as an integer. -/
def hiVal (t : IntTy) : Int :=
  if signedTy t then 2 ^ (bitsOf t - 1) else 2 ^ bitsOf t

/-- `v` is a value of type `t`. -/
abbrev inRange (t : IntTy) (v : Int) : Prop := loVal t ≤ v ∧ v < hiVal t

/-- Trait dispatch of `IntegerPrivate::write_to` over the sealed set of
widths (the `impl_Integer!` / `impl_Integer128!` instantiations in
src/lib.rs lines 221-239 and 305). -/
def write_to (t : IntTy) (v : Int) (f : Bytes) : Int × Bytes :=
  match t with
  | .i128 => write_to_128 I128_MAX_LEN (decide (0 ≤ v)) (magU 128 v) f
  | .u128 => write_to_128 U128_MAX_LEN (decide (0 ≤ v)) (magU 128 v) f
  | t => write_to_gen (convBits t) (maxLen t) (decide (2 ≤ sizeBytes t)) v f

/-- The bytes of the half-open memory interval `[a, b)`. -/
def viewI (f : Bytes) (a b : Int) : List (Option Nat) :=
  (List.range (b - a).toNat).map fun (k : Nat) => f (a + (k : Int))

/-- The 40-byte scratch buffer `itoa::Buffer` (`bytes: [MaybeUninit<u8>; I128_MAX_LEN]`). -/
structure Buffer where
  bytes : Bytes

/-- `Buffer::new`: fully uninitialized contents. -/
def Buffer.new : Buffer := ⟨uninitBytes⟩

/-- `impl Default for Buffer` delegates to `Buffer::new`. -/
def Buffer.default : Buffer := Buffer.new

/-- `impl Clone for Buffer` (src/lib.rs lines 72-77): the body is
`Buffer::new()`; no bytes of the source buffer are copied. -/
def Buffer.clone (_ : Buffer) : Buffer := Buffer.new

/-- `Buffer::format`: run `write_to` for the width on the buffer's memory
and return the written sub-slice `[curr, max_len)` together with the
updated buffer. -/
def Buffer.format (b : Buffer) (t : IntTy) (v : Int) : List (Option Nat) × Buffer :=
  let r := write_to t v b.bytes
  (viewI r.2 r.1 (maxLen t), ⟨r.2⟩)

/-! ### Specification-side definitions: canonical decimal text -/

/-- The zero-padded `len`-digit ASCII representation of `x` (most
significant digit first). -/
def padDigits (x : Nat) : Nat → List Nat
  | 0 => []
  | len + 1 => (48 + x / 10 ^ len % 10) :: padDigits x len

/-- The number of decimal digits of `n` (one digit for `n = 0`). -/
def numLen (n : Nat) : Nat := Nat.log 10 n + 1

/-- The canonical decimal ASCII bytes of a natural number: `numLen n`
digits with no leading zero (except the single digit of 0 itself). -/
def decRepr (n : Nat) : List Nat := padDigits n (numLen n)

/-- The canonical decimal ASCII bytes of an integer: a leading `'-'`
(byte 45) exactly when negative. -/
def intRepr (v : Int) : List Nat :=
  if v < 0 then 45 :: decRepr (-v).toNat else decRepr v.toNat

/-- The ASCII bytes of a string literal. -/
def strBytes (s : String) : List Nat := s.toList.map Char.toNat

/-- Standard decimal parsing of ASCII digit bytes (most significant first). -/
def parseDigits (bs : List Nat) : Nat := bs.foldl (fun a b => a * 10 + (b - 48)) 0

/-- Standard decimal integer parsing: an optional leading `'-'` then digits. -/
def parseInt (bs : List Nat) : Int :=
  if bs.head? = some 45 then -(parseDigits bs.tail : Int) else (parseDigits bs : Int)

/-- Canonical-shape predicate for the formatted text of `v`: non-empty, all
bytes decimal digits apart from a single leading `'-'` present exactly when
`v < 0`, and no leading zeros except the single `"0"` for zero. -/
def canonicalDec (v : Int) (bs : List Nat) : Prop :=
  bs ≠ [] ∧
  (if v < 0 then bs.head? = some 45 ∧ ∀ b ∈ bs.tail, 48 ≤ b ∧ b ≤ 57
   else ∀ b ∈ bs, 48 ≤ b ∧ b ≤ 57) ∧
  (v = 0 → bs = [48]) ∧
  (0 < v → bs.head? ≠ some 48) ∧
  (v < 0 → bs.tail.head? ≠ some 48)

/-- Invariant connecting a memory state to the one before a digit write:
`g` agrees with `f` outside the interval `[curr - len, curr)` and holds on
it the zero-padded low `len` decimal digits of `n`, most significant first. -/
def digitsWritten (f g : Bytes) (curr : Int) (n len : Nat) : Prop :=
  (∀ j : Int, j < curr - (len : Int) ∨ curr ≤ j → g j = f j) ∧
  (∀ k : Nat, k < len →
    g (curr - (len : Int) + (k : Int)) = some (48 + n / 10 ^ (len - 1 - k) % 10))

/-- Invariant for a completed `write_to`: `g` agrees with `f` outside
`[c, L)`, and `[c, L)` holds exactly the bytes `bs`. -/
def textWritten (f g : Bytes) (L c : Int) (bs : List Nat) : Prop :=
  c = L - (bs.length : Int) ∧
  (∀ j : Int, j < c ∨ L ≤ j → g j = f j) ∧
  (∀ k : Nat, k < bs.length → g (c + (k : Int)) = some (bs.getD k 0))

/-! ### Basic lemmas about the memory model -/

theorem setB_eq (f : Bytes) (i : Int) (b : Nat) : setB f i b i = some b := by
  simp [setB]

theorem setB_ne (f : Bytes) (i : Int) (b : Nat) {j : Int} (h : j ≠ i) :
    setB f i b j = f j := by
  simp [setB, h]

theorem lut_pair :
    ∀ d, d < 100 → lutByte (2 * d) = 48 + d / 10 ∧ lutByte (2 * d + 1) = 48 + d % 10 := by
  decide

theorem copy2_ne (f : Bytes) (dst : Int) (src : Nat) {j : Int}
    (h1 : j ≠ dst) (h2 : j ≠ dst + 1) : copy2 f dst src j = f j := by
  simp [copy2, setB, h1, h2]

theorem copy2_fst (f : Bytes) (dst : Int) (src : Nat) :
    copy2 f dst src dst = some (lutByte src) := by
  have h : dst ≠ dst + 1 := by omega
  simp [copy2, setB, h]

theorem copy2_snd (f : Bytes) (dst : Int) (src : Nat) :
    copy2 f dst src (dst + 1) = some (lutByte (src + 1)) := by
  simp [copy2, setB]

theorem zeroFill_apply : ∀ (c : Nat) (f : Bytes) (i j : Int),
    zeroFill f i c j = if i ≤ j ∧ j < i + c then some 48 else f j := by
  intro c
  induction c with
  | zero =>
    intro f i j
    show f j = _
    rw [if_neg (by push_cast; omega)]
  | succ c ih =>
    intro f i j
    show zeroFill (setB f i 48) (i + 1) c j = _
    rw [ih]
    by_cases h1 : i + 1 ≤ j ∧ j < i + 1 + (c : Int)
    · rw [if_pos h1, if_pos (by push_cast; omega)]
    · rw [if_neg h1]
      by_cases h2 : j = i
      · subst h2
        rw [setB_eq, if_pos (by push_cast; omega)]
      · rw [setB_ne _ _ _ h2, if_neg (by push_cast at h1 ⊢; omega)]

/-! ### Lemmas about the canonical decimal representation -/

theorem padDigits_length (x : Nat) : ∀ len, (padDigits x len).length = len := by
  intro len
  induction len with
  | zero => rfl
  | succ len ih => simp [padDigits, ih]

theorem padDigits_getD (x : Nat) : ∀ len k, k < len →
    (padDigits x len).getD k 0 = 48 + x / 10 ^ (len - 1 - k) % 10 := by
  intro len
  induction len with
  | zero => intro k hk; omega
  | succ len ih =>
    intro k hk
    cases k with
    | zero => simp [padDigits]
    | succ k =>
      have h := ih k (by omega)
      have he : len - 1 - k = len - (k + 1) := by omega
      rw [he] at h
      simpa [padDigits] using h

theorem padDigits_mem (x : Nat) : ∀ len, ∀ b ∈ padDigits x len, 48 ≤ b ∧ b ≤ 57 := by
  intro len
  induction len with
  | zero => intro b hb; simp [padDigits] at hb
  | succ len ih =>
    intro b hb
    simp only [padDigits, List.mem_cons] at hb
    rcases hb with hb | hb
    · subst hb
      have : x / 10 ^ len % 10 < 10 := Nat.mod_lt _ (by norm_num)
      omega
    · exact ih b hb

theorem numLen_pos (n : Nat) : 1 ≤ numLen n := Nat.succ_le_succ (Nat.zero_le _)

theorem lt_pow_numLen (n : Nat) : n < 10 ^ numLen n :=
  Nat.lt_pow_succ_log_self (by norm_num) n

theorem pow_numLen_pred_le {n : Nat} (h : 1 ≤ n) : 10 ^ (numLen n - 1) ≤ n := by
  simpa [numLen] using Nat.pow_log_le_self 10 (by omega : n ≠ 0)

theorem numLen_eq {n k : Nat} (h1 : 10 ^ k ≤ n) (h2 : n < 10 ^ (k + 1)) :
    numLen n = k + 1 := by
  unfold numLen
  rw [Nat.log_eq_of_pow_le_of_lt_pow h1 h2]

theorem numLen_le {n k : Nat} (h : n < 10 ^ k) (hk : 1 ≤ k) : numLen n ≤ k := by
  rcases Nat.eq_zero_or_pos n with h0 | h0
  · subst h0
    simpa [numLen] using hk
  · have := Nat.log_lt_of_lt_pow (by omega : n ≠ 0) h
    unfold numLen
    omega

theorem numLen_div_pow {n j : Nat} (h : 10 ^ j ≤ n) :
    numLen (n / 10 ^ j) + j = numLen n := by
  have hp : 0 < (10 : Nat) ^ j := Nat.pos_pow_of_pos j (by norm_num)
  have h1 : 1 ≤ n / 10 ^ j := (Nat.one_le_div_iff hp).2 h
  have l1 : 10 ^ (numLen (n / 10 ^ j) - 1) ≤ n / 10 ^ j := pow_numLen_pred_le h1
  have l2 : n / 10 ^ j < 10 ^ numLen (n / 10 ^ j) := lt_pow_numLen _
  have a1 : 10 ^ (numLen (n / 10 ^ j) - 1 + j) ≤ n := by
    rw [pow_add]
    calc 10 ^ (numLen (n / 10 ^ j) - 1) * 10 ^ j
        ≤ n / 10 ^ j * 10 ^ j := Nat.mul_le_mul_right _ l1
      _ ≤ n := Nat.div_mul_le_self n _
  have a2 : n < 10 ^ (numLen (n / 10 ^ j) + j) := by
    rw [pow_add]
    exact (Nat.div_lt_iff_lt_mul hp).1 l2
  have hform : numLen (n / 10 ^ j) - 1 + j + 1 = numLen (n / 10 ^ j) + j := by
    have := numLen_pos (n / 10 ^ j)
    omega
  have := numLen_eq a1 (by rw [hform]; exact a2)
  omega

theorem digit_mod_pow {n e len : Nat} (h : e < len) :
    n % 10 ^ len / 10 ^ e % 10 = n / 10 ^ e % 10 := by
  have hd : (10 : Nat) ^ e * 10 ∣ 10 ^ len := by
    have : (10 : Nat) ^ e * 10 = 10 ^ (e + 1) := by rw [pow_succ]
    rw [this]
    exact pow_dvd_pow 10 h
  rw [← Nat.mod_mul_right_div_self, ← Nat.mod_mul_right_div_self, Nat.mod_mod_of_dvd _ hd]

theorem digit_div_high {x e len : Nat} (hx : x < 10 ^ len) (he : len ≤ e) :
    x / 10 ^ e % 10 = 0 := by
  have : x < 10 ^ e := lt_of_lt_of_le hx (Nat.pow_le_pow_right (by norm_num) he)
  rw [Nat.div_eq_of_lt this]

/-! ### The digit-writing invariant and its composition -/

theorem digitsWritten_comp {f g h : Bytes} {curr : Int} {n l1 l2 : Nat}
    (h1 : digitsWritten f g curr n l1)
    (h2 : digitsWritten g h (curr - (l1 : Int)) (n / 10 ^ l1) l2) :
    digitsWritten f h curr n (l2 + l1) := by
  obtain ⟨fr1, by1⟩ := h1
  obtain ⟨fr2, by2⟩ := h2
  constructor
  · intro j hj
    rcases hj with hj | hj
    · rw [fr2 j (Or.inl (by push_cast at hj ⊢; omega)),
        fr1 j (Or.inl (by push_cast at hj ⊢; omega))]
    · rw [fr2 j (Or.inr (by omega)), fr1 j (Or.inr hj)]
  · intro k hk
    by_cases hk2 : k < l2
    · have hpos : curr - ((l2 + l1 : Nat) : Int) + (k : Int) =
          curr - (l1 : Int) - (l2 : Int) + (k : Int) := by push_cast; ring
      rw [hpos, by2 k hk2]
      have hexp : l1 + (l2 - 1 - k) = l2 + l1 - 1 - k := by omega
      rw [Nat.div_div_eq_div_mul, ← pow_add, hexp]
    · have hk1 : k - l2 < l1 := by omega
      have hpos : curr - ((l2 + l1 : Nat) : Int) + (k : Int) =
          curr - (l1 : Int) + ((k - l2 : Nat) : Int) := by push_cast; omega
      have hge : curr - (l1 : Int) ≤ curr - ((l2 + l1 : Nat) : Int) + (k : Int) := by
        push_cast; omega
      have hexp : l1 - 1 - (k - l2) = l2 + l1 - 1 - k := by omega
      rw [fr2 _ (Or.inr hge), hpos, by1 (k - l2) hk1, hexp]

theorem digitsWritten_single (f : Bytes) (curr : Int) (n : Nat) (hn : n < 10) :
    digitsWritten f (setB f (curr - 1) (48 + n)) curr n 1 := by
  constructor
  · intro j hj
    exact setB_ne _ _ _ (by push_cast at hj ⊢; omega)
  · intro k hk
    interval_cases k
    have hpos : curr - ((1 : Nat) : Int) + ((0 : Nat) : Int) = curr - 1 := by
      push_cast; ring
    rw [hpos, setB_eq]
    congr 1
    rw [show (1 : Nat) - 1 - 0 = 0 from rfl, pow_zero, Nat.div_one]
    omega

theorem digitsWritten_low2 (f : Bytes) (curr : Int) (n : Nat) :
    digitsWritten f (copy2 f (curr - 2) (n % 100 * 2)) curr n 2 := by
  obtain ⟨hl1, hl2⟩ := lut_pair (n % 100) (Nat.mod_lt _ (by norm_num))
  rw [mul_comm] at hl1 hl2
  constructor
  · intro j hj
    exact copy2_ne _ _ _ (by push_cast at hj ⊢; omega) (by push_cast at hj ⊢; omega)
  · intro k hk
    interval_cases k
    · have hpos : curr - ((2 : Nat) : Int) + ((0 : Nat) : Int) = curr - 2 := by
        push_cast; ring
      rw [hpos, copy2_fst, hl1]
      congr 1
      rw [show (2 : Nat) - 1 - 0 = 1 from rfl, pow_one]
      omega
    · have hpos : curr - ((2 : Nat) : Int) + ((1 : Nat) : Int) = curr - 2 + 1 := by
        push_cast; ring
      rw [hpos, copy2_snd]
      rw [show n % 100 * 2 + 1 = 2 * (n % 100) + 1 by ring] at hl2 ⊢
      rw [hl2]
      congr 1
      rw [show (2 : Nat) - 1 - 1 = 0 from rfl, pow_zero, Nat.div_one]
      omega

theorem digitsWritten_low4 (f : Bytes) (curr : Int) (n : Nat) :
    digitsWritten f
      (copy2 (copy2 f (curr - 4) (n % 10000 / 100 * 2)) (curr - 4 + 2) (n % 10000 % 100 * 2))
      curr n 4 := by
  obtain ⟨ha1, ha2⟩ := lut_pair (n % 10000 / 100) (by omega)
  obtain ⟨hb1, hb2⟩ := lut_pair (n % 10000 % 100) (by omega)
  rw [mul_comm] at ha1 ha2 hb1 hb2
  constructor
  · intro j hj
    rw [copy2_ne _ _ _ (by push_cast at hj ⊢; omega) (by push_cast at hj ⊢; omega),
      copy2_ne _ _ _ (by push_cast at hj ⊢; omega) (by push_cast at hj ⊢; omega)]
  · intro k hk
    interval_cases k
    · have hpos : curr - ((4 : Nat) : Int) + ((0 : Nat) : Int) = curr - 4 := by
        push_cast; ring
      rw [hpos, copy2_ne _ _ _ (by omega) (by omega), copy2_fst, ha1]
      congr 1
      rw [show (4 : Nat) - 1 - 0 = 3 from rfl, show (10 : Nat) ^ 3 = 1000 from rfl]
      omega
    · have hpos : curr - ((4 : Nat) : Int) + ((1 : Nat) : Int) = curr - 4 + 1 := by
        push_cast; ring
      rw [hpos, copy2_ne _ _ _ (by omega) (by omega), copy2_snd]
      rw [show n % 10000 / 100 * 2 + 1 = 2 * (n % 10000 / 100) + 1 by ring] at ha2 ⊢
      rw [ha2]
      congr 1
      rw [show (4 : Nat) - 1 - 1 = 2 from rfl, show (10 : Nat) ^ 2 = 100 from rfl]
      omega
    · have hpos : curr - ((4 : Nat) : Int) + ((2 : Nat) : Int) = curr - 4 + 2 := by
        push_cast; ring
      rw [hpos, copy2_fst, hb1]
      congr 1
      rw [show (4 : Nat) - 1 - 2 = 1 from rfl, pow_one]
      omega
    · have hpos : curr - ((4 : Nat) : Int) + ((3 : Nat) : Int) = curr - 4 + 2 + 1 := by
        push_cast; ring
      rw [hpos, copy2_snd]
      rw [show n % 10000 % 100 * 2 + 1 = 2 * (n % 10000 % 100) + 1 by ring] at hb2 ⊢
      rw [hb2]
      congr 1
      rw [show (4 : Nat) - 1 - 3 = 0 from rfl, pow_zero, Nat.div_one]
      omega

/-! ### Correctness of the digit-writing phases -/

theorem writeTail2_spec (n : Nat) (curr : Int) (f : Bytes) (h : n < 100) :
    (writeTail2 n curr f).1 = curr - (numLen n : Int) ∧
    digitsWritten f (writeTail2 n curr f).2 curr n (numLen n) := by
  by_cases h10 : n < 10
  · have hlen : numLen n = 1 := by
      have h1 := numLen_le (show n < 10 ^ 1 by simpa using h10) (le_refl 1)
      have h2 := numLen_pos n
      omega
    unfold writeTail2
    rw [if_pos h10, hlen]
    exact ⟨by norm_num, digitsWritten_single f curr n h10⟩
  · have hlen : numLen n = 2 := by
      refine numLen_eq ?_ ?_ <;> simpa using by omega
    unfold writeTail2
    rw [if_neg h10, hlen]
    have hm : n % 100 = n := Nat.mod_eq_of_lt h
    refine ⟨by norm_num, ?_⟩
    have := digitsWritten_low2 f curr n
    rwa [hm] at this

theorem writeTail_spec (n : Nat) (curr : Int) (f : Bytes) (h : n < 10000) :
    (writeTail n curr f).1 = curr - (numLen n : Int) ∧
    digitsWritten f (writeTail n curr f).2 curr n (numLen n) := by
  by_cases h100 : 100 ≤ n
  · unfold writeTail
    rw [if_pos h100]
    have hd1 : digitsWritten f (copy2 f (curr - 2) (n % 100 * 2)) curr n 2 :=
      digitsWritten_low2 f curr n
    obtain ⟨hc, hd2⟩ := writeTail2_spec (n / 100) (curr - 2)
      (copy2 f (curr - 2) (n % 100 * 2)) (by omega)
    have hcast : curr - 2 = curr - ((2 : Nat) : Int) := by norm_num
    have hdiv : n / 100 = n / 10 ^ 2 := by norm_num
    rw [hcast, hdiv] at hd2
    have hcomb := digitsWritten_comp hd1 hd2
    have hlen : numLen (n / 10 ^ 2) + 2 = numLen n :=
      numLen_div_pow (by norm_num; omega)
    rw [← hdiv] at hlen
    constructor
    · rw [hc]
      omega
    · rw [← hlen]
      rw [hdiv]
      exact hcomb
  · unfold writeTail
    rw [if_neg h100]
    exact writeTail2_spec n curr f (by omega)

theorem loop4_spec : ∀ (fuel n : Nat) (curr : Int) (f : Bytes), n < 10000 ^ fuel →
    ∃ m : Nat,
      (loop4 fuel n curr f).1 = n / 10 ^ (4 * m) ∧
      (loop4 fuel n curr f).2.1 = curr - ((4 * m : Nat) : Int) ∧
      n / 10 ^ (4 * m) < 10000 ∧
      (m = 0 ∨ 10 ^ (4 * m) ≤ n) ∧
      digitsWritten f (loop4 fuel n curr f).2.2 curr n (4 * m) := by
  intro fuel
  induction fuel with
  | zero =>
    intro n curr f hn
    have hn0 : n = 0 := by simpa using hn
    subst hn0
    refine ⟨0, by norm_num [loop4], by norm_num [loop4], by norm_num, Or.inl rfl, ?_, ?_⟩
    · intro j hj
      rfl
    · intro k hk
      omega
  | succ fuel ih =>
    intro n curr f hn
    by_cases h4 : 10000 ≤ n
    · have hstep : loop4 (fuel + 1) n curr f =
          loop4 fuel (n / 10000) (curr - 4)
            (copy2 (copy2 f (curr - 4) (n % 10000 / 100 * 2)) (curr - 4 + 2)
              (n % 10000 % 100 * 2)) := by
        show (if 10000 ≤ n then _ else _) = _
        rw [if_pos h4]
      have hlow := digitsWritten_low4 f curr n
      have hn' : n / 10000 < 10000 ^ fuel := by
        rw [pow_succ, mul_comm] at hn
        exact Nat.div_lt_of_lt_mul hn
      obtain ⟨m, e1, e2, e3, e4, e5⟩ := ih (n / 10000) (curr - 4)
        (copy2 (copy2 f (curr - 4) (n % 10000 / 100 * 2)) (curr - 4 + 2)
          (n % 10000 % 100 * 2)) hn'
      have hpow : (10000 : Nat) * 10 ^ (4 * m) = 10 ^ (4 * (m + 1)) := by
        rw [show (10000 : Nat) = 10 ^ 4 from rfl, ← pow_add]
        congr 1
        ring
      refine ⟨m + 1, ?_, ?_, ?_, ?_, ?_⟩
      · rw [hstep, e1, Nat.div_div_eq_div_mul, hpow]
      · rw [hstep, e2]
        push_cast
        ring
      · rw [show 4 * (m + 1) = 4 * m + 4 by ring, pow_add,
          show (10 : Nat) ^ 4 = 10000 from rfl, mul_comm, ← Nat.div_div_eq_div_mul]
        exact e3
      · right
        rcases e4 with e4 | e4
        · subst e4
          simpa using h4
        · have hmul := (Nat.le_div_iff_mul_le (by norm_num : 0 < (10000 : Nat))).1 e4
          calc (10 : Nat) ^ (4 * (m + 1)) = 10000 * 10 ^ (4 * m) := hpow.symm
            _ = 10 ^ (4 * m) * 10000 := by ring
            _ ≤ n := hmul
      · have hc4 : curr - 4 = curr - ((4 : Nat) : Int) := by norm_num
        have hd4 : n / 10000 = n / 10 ^ 4 := by norm_num
        rw [hc4, hd4] at e5
        have hcomb := digitsWritten_comp hlow e5
        rw [hstep]
        have hlen : 4 * m + 4 = 4 * (m + 1) := by ring
        rw [← hlen]
        exact hcomb
    · have hstep : loop4 (fuel + 1) n curr f = (n, curr, f) := by
        show (if 10000 ≤ n then _ else _) = _
        rw [if_neg h4]
      refine ⟨0, ?_, ?_, ?_, Or.inl rfl, ?_, ?_⟩
      · rw [hstep]
        norm_num
      · rw [hstep]
        norm_num
      · norm_num
        omega
      · intro j hj
        rw [hstep]
      · intro k hk
        omega

/-- Correctness of the full digit phase of the generic `write_to`: with
sufficient fuel (and, when the batched loop is compiled out for one-byte
types, a magnitude below 10000), the digits of `n` are written right-aligned
at `curr` and the cursor lands `numLen n` positions earlier. -/
theorem writeDigits_spec (szGe2 : Bool) (fuel n : Nat) (curr : Int) (f : Bytes)
    (hfuel : szGe2 = true → n < 10000 ^ fuel)
    (hsmall : szGe2 = false → n < 10000) :
    (writeDigits szGe2 fuel n curr f).1 = curr - (numLen n : Int) ∧
    digitsWritten f (writeDigits szGe2 fuel n curr f).2 curr n (numLen n) := by
  cases szGe2 with
  | false =>
    have h := hsmall rfl
    show ((writeTail n curr f).1 = _) ∧ _
    exact writeTail_spec n curr f h
  | true =>
    obtain ⟨m, e1, e2, e3, e4, e5⟩ := loop4_spec fuel n curr f (hfuel rfl)
    have htail := writeTail_spec (loop4 fuel n curr f).1 (loop4 fuel n curr f).2.1
      (loop4 fuel n curr f).2.2 (by rw [e1]; exact e3)
    obtain ⟨tc, td⟩ := htail
    rw [e1, e2] at td
    have hcomp := digitsWritten_comp e5 td
    have hlen : numLen (n / 10 ^ (4 * m)) + 4 * m = numLen n := by
      rcases e4 with e4 | e4
      · subst e4
        norm_num
      · exact numLen_div_pow e4
    constructor
    · show (writeTail (loop4 fuel n curr f).1 (loop4 fuel n curr f).2.1
        (loop4 fuel n curr f).2.2).1 = _
      rw [tc, e1, e2]
      push_cast
      omega
    · show digitsWritten f (writeTail (loop4 fuel n curr f).1 (loop4 fuel n curr f).2.1
        (loop4 fuel n curr f).2.2).2 curr n (numLen n)
      rw [e1, e2, ← hlen]
      exact hcomp

/-! ### From digit writes to the final text -/

theorem decRepr_length (n : Nat) : (decRepr n).length = numLen n :=
  padDigits_length n _

theorem decRepr_getD {n k : Nat} (h : k < numLen n) :
    (decRepr n).getD k 0 = 48 + n / 10 ^ (numLen n - 1 - k) % 10 :=
  padDigits_getD n _ k h

theorem textWritten_pos {f g : Bytes} {L : Int} {n : Nat}
    (h : digitsWritten f g L n (numLen n)) :
    textWritten f g L (L - (numLen n : Int)) (decRepr n) := by
  obtain ⟨fr, bys⟩ := h
  refine ⟨by rw [decRepr_length], fr, ?_⟩
  intro k hk
  rw [decRepr_length] at hk
  rw [decRepr_getD hk]
  exact bys k hk

theorem textWritten_neg {f g : Bytes} {L : Int} {n : Nat}
    (h : digitsWritten f g L n (numLen n)) :
    textWritten f (setB g (L - (numLen n : Int) - 1) 45) L
      (L - (numLen n : Int) - 1) (45 :: decRepr n) := by
  obtain ⟨fr, bys⟩ := h
  refine ⟨?_, ?_, ?_⟩
  · rw [List.length_cons, decRepr_length]
    omega
  · intro j hj
    rcases hj with hj | hj
    · rw [setB_ne _ _ _ (by omega), fr j (Or.inl (by omega))]
    · have hnn : (0 : Int) ≤ (numLen n : Int) := Int.ofNat_nonneg _
      rw [setB_ne _ _ _ (by omega), fr j (Or.inr hj)]
  · intro k hk
    cases k with
    | zero =>
      have hpos : L - (numLen n : Int) - 1 + ((0 : Nat) : Int) =
          L - (numLen n : Int) - 1 := by push_cast; ring
      rw [hpos, setB_eq]
      rfl
    | succ k =>
      rw [List.length_cons, decRepr_length] at hk
      have hk' : k < numLen n := by omega
      have hpos : L - (numLen n : Int) - 1 + ((k + 1 : Nat) : Int) =
          L - (numLen n : Int) + (k : Int) := by push_cast; ring
      rw [hpos, setB_ne _ _ _ (by omega), List.getD_cons_succ,
        decRepr_getD hk']
      exact bys k hk'

theorem magU_eq {cb : Nat} {v : Int} (hcb : 1 ≤ cb)
    (hlo : -(2 ^ (cb - 1) : Int) ≤ v) (hhi : v < 2 ^ cb) :
    magU cb v = v.natAbs := by
  have hhalf : (2 : Int) ^ (cb - 1) * 2 = 2 ^ cb := by
    rw [← pow_succ]
    congr 1
    omega
  have hA : (0 : Int) < 2 ^ (cb - 1) := by positivity
  unfold magU
  by_cases h0 : 0 ≤ v
  · rw [if_pos h0, Int.emod_eq_of_lt h0 hhi]
    omega
  · rw [if_neg h0]
    have hneg : v < 0 := by omega
    have hmod : v % (2 ^ cb : Int) = v + 2 ^ cb := by
      rw [← Int.add_emod_self]
      exact Int.emod_eq_of_lt (by omega) (by omega)
    have hx : ((v % (2 ^ cb : Int)).toNat : Int) = v + 2 ^ cb := by
      rw [hmod]
      exact Int.toNat_of_nonneg (by omega)
    have hcast : (((2 : Nat) ^ cb : Nat) : Int) = (2 : Int) ^ cb := by
      push_cast
      rfl
    have harg : 2 ^ cb - 1 - (v % (2 ^ cb : Int)).toNat + 1 = v.natAbs := by omega
    rw [harg, Nat.mod_eq_of_lt (by omega)]

theorem signWrap_spec {f : Bytes} {L : Int} {n : Nat} (sgn : Bool) (r : Int × Bytes)
    (hc : r.1 = L - (numLen n : Int)) (hd : digitsWritten f r.2 L n (numLen n)) :
    textWritten f (signWrap sgn r).2 L (signWrap sgn r).1
      (if sgn then decRepr n else 45 :: decRepr n) := by
  cases sgn with
  | true =>
    show textWritten f r.2 L r.1 (decRepr n)
    rw [hc]
    exact textWritten_pos hd
  | false =>
    show textWritten f (setB r.2 (r.1 - 1) 45) L (r.1 - 1) (45 :: decRepr n)
    rw [hc]
    exact textWritten_neg hd

theorem intRepr_decide (cb : Nat) (v : Int) (hmag : magU cb v = v.natAbs) :
    intRepr v =
      (if decide (0 ≤ v) then decRepr (magU cb v) else 45 :: decRepr (magU cb v)) := by
  unfold intRepr
  by_cases h0 : 0 ≤ v
  · rw [if_neg (show ¬ v < 0 by omega), decide_eq_true h0, if_pos rfl, hmag,
      show v.toNat = v.natAbs from by omega]
  · rw [if_pos (show v < 0 by omega), decide_eq_false h0,
      if_neg (show ¬ false = true by simp), hmag,
      show (-v).toNat = v.natAbs from by omega]

theorem intRepr_length (v : Int) :
    (intRepr v).length = numLen v.natAbs + (if v < 0 then 1 else 0) := by
  unfold intRepr
  by_cases h0 : v < 0
  · rw [if_pos h0, if_pos h0, List.length_cons, decRepr_length,
      show (-v).toNat = v.natAbs from by omega]
  · rw [if_neg h0, if_neg h0, decRepr_length, show v.toNat = v.natAbs from by omega]
    omega

/-- Full correctness of the generic `write_to`: the buffer range
`[cursor, L)` afterwards holds exactly the canonical decimal text of `v`. -/
theorem write_to_gen_spec (cb L : Nat) (szGe2 : Bool) (v : Int) (f : Bytes)
    (hcb : 1 ≤ cb)
    (hlo : -(2 ^ (cb - 1) : Int) ≤ v) (hhi : v < 2 ^ cb)
    (hfuel : szGe2 = true → v.natAbs < 10000 ^ L)
    (hsmall : szGe2 = false → v.natAbs < 10000) :
    textWritten f (write_to_gen cb L szGe2 v f).2 (L : Int)
      (write_to_gen cb L szGe2 v f).1 (intRepr v) := by
  have hmag : magU cb v = v.natAbs := magU_eq hcb hlo hhi
  obtain ⟨hc, hd⟩ := writeDigits_spec szGe2 L (magU cb v) (L : Int) f
    (fun h => by rw [hmag]; exact hfuel h) (fun h => by rw [hmag]; exact hsmall h)
  have final := signWrap_spec (decide (0 ≤ v))
    (writeDigits szGe2 L (magU cb v) (L : Int) f) hc hd
  have hrepr := intRepr_decide cb v hmag
  show textWritten f (signWrap (decide (0 ≤ v))
      (writeDigits szGe2 L (magU cb v) (L : Int) f)).2 (L : Int)
    (signWrap (decide (0 ≤ v)) (writeDigits szGe2 L (magU cb v) (L : Int) f)).1
    (intRepr v)
  rw [hrepr]
  exact final

/-! ### Correctness of the 128-bit path -/

/-- Zero-filling the gap between the cursor after a chunk write and the
chunk's fixed 19-wide slot turns the trimmed digits of `x % 10^19` into the
full zero-padded low 19 digits of `x`. -/
theorem chunk19 {f g : Bytes} {curr c : Int} {x : Nat}
    (hc : c = curr - (numLen (x % 10 ^ 19) : Int))
    (hd : digitsWritten f g curr (x % 10 ^ 19) (numLen (x % 10 ^ 19))) :
    digitsWritten f (zeroFill g (curr - 19) ((c - (curr - 19)).toNat)) curr x 19 := by
  obtain ⟨fr, bys⟩ := hd
  have hml : numLen (x % 10 ^ 19) ≤ 19 :=
    numLen_le (Nat.mod_lt _ (by positivity)) (by norm_num)
  have hml1 : 1 ≤ numLen (x % 10 ^ 19) := numLen_pos _
  have hcnt : (((c - (curr - 19)).toNat : Nat) : Int) =
      19 - (numLen (x % 10 ^ 19) : Int) := by omega
  constructor
  · intro j hj
    rw [zeroFill_apply, if_neg (by omega)]
    exact fr j (by omega)
  · intro k hk
    rw [zeroFill_apply]
    by_cases hz : k < 19 - numLen (x % 10 ^ 19)
    · rw [if_pos (by omega)]
      have h1 : x / 10 ^ (19 - 1 - k) % 10 = (x % 10 ^ 19) / 10 ^ (19 - 1 - k) % 10 :=
        (digit_mod_pow (by omega)).symm
      have h2 : (x % 10 ^ 19) / 10 ^ (19 - 1 - k) % 10 = 0 :=
        digit_div_high (lt_pow_numLen _) (by omega)
      rw [h1, h2]
    · rw [if_neg (by omega)]
      have hk' : k - (19 - numLen (x % 10 ^ 19)) < numLen (x % 10 ^ 19) := by omega
      have hpos : curr - ((19 : Nat) : Int) + (k : Int) =
          curr - (numLen (x % 10 ^ 19) : Int) +
            ((k - (19 - numLen (x % 10 ^ 19)) : Nat) : Int) := by omega
      rw [hpos, bys _ hk']
      have hexp : numLen (x % 10 ^ 19) - 1 - (k - (19 - numLen (x % 10 ^ 19))) =
          19 - 1 - k := by omega
      rw [hexp, digit_mod_pow (show 19 - 1 - k < 19 by omega)]

/-- Correctness of the digit part of the 128-bit `write_to` (everything
before the sign byte): it writes exactly the `numLen n` decimal digits of
`n` right-aligned at offset `L`. -/
theorem write128_digits (L : Nat) (n : Nat) (f : Bytes) (hn : n < 10 ^ 39) :
    (write128_stage2 L (n / 10 ^ 19)
        (writeDigits true U64_MAX_LEN (n % 10 ^ 19) (L : Int) f).1
        (writeDigits true U64_MAX_LEN (n % 10 ^ 19) (L : Int) f).2).1
      = (L : Int) - (numLen n : Int) ∧
    digitsWritten f
      (write128_stage2 L (n / 10 ^ 19)
        (writeDigits true U64_MAX_LEN (n % 10 ^ 19) (L : Int) f).1
        (writeDigits true U64_MAX_LEN (n % 10 ^ 19) (L : Int) f).2).2
      L n (numLen n) := by
  have hp19 : (0 : Nat) < 10 ^ 19 := by positivity
  obtain ⟨c1, d1⟩ := writeDigits_spec true U64_MAX_LEN (n % 10 ^ 19) (L : Int) f
    (fun _ => lt_of_lt_of_le (Nat.mod_lt _ hp19) (by norm_num [U64_MAX_LEN]))
    (fun h => absurd h (by simp))
  set s1 := writeDigits true U64_MAX_LEN (n % 10 ^ 19) (L : Int) f with hs1
  by_cases hq1 : n / 10 ^ 19 = 0
  · have hlt : n < 10 ^ 19 := (Nat.div_eq_zero_iff hp19).1 hq1
    have hmod : n % 10 ^ 19 = n := Nat.mod_eq_of_lt hlt
    rw [hmod] at c1 d1
    unfold write128_stage2
    rw [if_neg (not_not_intro hq1)]
    exact ⟨c1, d1⟩
  · have h19 : 10 ^ 19 ≤ n := by
      rcases Nat.lt_or_ge n (10 ^ 19) with h | h
      · exact absurd ((Nat.div_eq_zero_iff hp19).2 h) hq1
      · exact h
    have hchunk1 := chunk19 c1 d1
    simp only [write128_stage2, udivmod_1e19]
    rw [if_pos hq1]
    obtain ⟨c2, d2⟩ := writeDigits_spec true U64_MAX_LEN (n / 10 ^ 19 % 10 ^ 19)
      ((L : Int) - 19) (zeroFill s1.2 ((L : Int) - 19) ((s1.1 - ((L : Int) - 19)).toNat))
      (fun _ => lt_of_lt_of_le (Nat.mod_lt _ hp19) (by norm_num [U64_MAX_LEN]))
      (fun h => absurd h (by simp))
    set s2 := writeDigits true U64_MAX_LEN (n / 10 ^ 19 % 10 ^ 19) ((L : Int) - 19)
      (zeroFill s1.2 ((L : Int) - 19) ((s1.1 - ((L : Int) - 19)).toNat)) with hs2
    have hlen1 : numLen (n / 10 ^ 19) + 19 = numLen n := numLen_div_pow h19
    by_cases hq2 : n / 10 ^ 19 / 10 ^ 19 = 0
    · have hlt2 : n / 10 ^ 19 < 10 ^ 19 := (Nat.div_eq_zero_iff hp19).1 hq2
      have hmod2 : n / 10 ^ 19 % 10 ^ 19 = n / 10 ^ 19 := Nat.mod_eq_of_lt hlt2
      rw [hmod2] at c2 d2
      unfold write128_stage3
      rw [if_neg (not_not_intro hq2)]
      have hcomb := digitsWritten_comp hchunk1 d2
      constructor
      · show s2.1 = _
        rw [c2]
        omega
      · show digitsWritten f s2.2 (L : Int) n (numLen n)
        rw [← hlen1]
        exact hcomb
    · have h1938 : 10 ^ 19 * 10 ^ 19 = (10 : Nat) ^ 38 := by
        rw [← pow_add]
      have h38 : 10 ^ 38 ≤ n := by
        have hge : 10 ^ 19 ≤ n / 10 ^ 19 := by
          rcases Nat.lt_or_ge (n / 10 ^ 19) (10 ^ 19) with h | h
          · exact absurd ((Nat.div_eq_zero_iff hp19).2 h) hq2
          · exact h
        have hh := (Nat.le_div_iff_mul_le hp19).1 hge
        rw [h1938] at hh
        exact hh
      have hq2v : n / 10 ^ 19 / 10 ^ 19 = n / 10 ^ 38 := by
        rw [Nat.div_div_eq_div_mul, ← pow_add]
      have hlt3 : n / 10 ^ 19 / 10 ^ 19 < 10 := by
        rw [hq2v, Nat.div_lt_iff_lt_mul (by positivity)]
        calc n < 10 ^ 39 := hn
          _ = 10 * 10 ^ 38 := by norm_num
      have hnl : numLen n = 39 := numLen_eq h38 hn
      unfold write128_stage3
      rw [if_pos hq2]
      dsimp only
      have hchunk2 := chunk19 c2 d2
      have e1938 : (L : Int) - 19 - 19 = (L : Int) - 38 := by ring
      rw [e1938] at hchunk2
      have hcomb := digitsWritten_comp hchunk1 hchunk2
      rw [show (19 + 19 : Nat) = 38 from rfl] at hcomb
      obtain ⟨frc, byc⟩ := hcomb
      refine ⟨by omega, ?_, ?_⟩
      · intro j hj
        rw [hnl] at hj
        rw [setB_ne _ _ _ (by omega)]
        refine frc j ?_
        rcases hj with hj | hj
        · exact Or.inl (by omega)
        · exact Or.inr hj
      · intro k hk
        rw [hnl] at hk ⊢
        cases k with
        | zero =>
          have hpos : (L : Int) - ((39 : Nat) : Int) + ((0 : Nat) : Int) =
              (L : Int) - 38 - 1 := by omega
          rw [hpos, setB_eq]
          rw [show (39 : Nat) - 1 - 0 = 38 from rfl, hq2v,
            Nat.mod_eq_of_lt (by rw [← hq2v]; exact hlt3)]
        | succ k =>
          have hk' : k < 38 := by omega
          have hpos : (L : Int) - ((39 : Nat) : Int) + ((k + 1 : Nat) : Int) =
              (L : Int) - ((38 : Nat) : Int) + ((k : Nat) : Int) := by omega
          rw [hpos, setB_ne _ _ _ (by omega), byc k hk']
          have hexp : (38 : Nat) - 1 - k = 39 - 1 - (k + 1) := by omega
          rw [hexp]

/-- Full correctness of the 128-bit `write_to` for a magnitude `n` and sign
flag: the buffer holds the canonical digits of `n` preceded by `'-'` when
the flag is false. -/
theorem write_to_128_spec (L : Nat) (sgn : Bool) (n : Nat) (f : Bytes)
    (hn : n < 10 ^ 39) :
    textWritten f (write_to_128 L sgn n f).2 (L : Int) (write_to_128 L sgn n f).1
      (if sgn then decRepr n else 45 :: decRepr n) := by
  obtain ⟨hc, hd⟩ := write128_digits L n f hn
  exact signWrap_spec sgn
    (write128_stage2 L (n / 10 ^ 19)
      (writeDigits true U64_MAX_LEN (n % 10 ^ 19) (L : Int) f).1
      (writeDigits true U64_MAX_LEN (n % 10 ^ 19) (L : Int) f).2) hc hd

theorem write_to_128_spec_v (L : Nat) (v : Int) (f : Bytes)
    (hlo : -(2 ^ (128 - 1) : Int) ≤ v) (hhi : v < 2 ^ 128)
    (hna : v.natAbs < 10 ^ 39) :
    textWritten f (write_to_128 L (decide (0 ≤ v)) (magU 128 v) f).2 (L : Int)
      (write_to_128 L (decide (0 ≤ v)) (magU 128 v) f).1 (intRepr v) := by
  have hmag : magU 128 v = v.natAbs := magU_eq (by norm_num) hlo hhi
  have h1 := write_to_128_spec L (decide (0 ≤ v)) (magU 128 v) f (by rw [hmag]; exact hna)
  rw [intRepr_decide 128 v hmag]
  exact h1

/-! ### Per-width instantiation helpers -/

theorem write_to_gen_signed (cb L w : Nat) (szGe2 : Bool) (v : Int) (f : Bytes)
    (hw : 1 ≤ w) (hwc : w ≤ cb) (hL : 2 ≤ L)
    (hlo : -(2 ^ (w - 1) : Int) ≤ v) (hhi : v < 2 ^ (w - 1))
    (hdig : (2 : Nat) ^ (w - 1) < 10 ^ (L - 1))
    (hfuel : szGe2 = true → (2 : Nat) ^ (w - 1) < 10000 ^ L)
    (hsmall : szGe2 = false → (2 : Nat) ^ (w - 1) < 10000) :
    (textWritten f (write_to_gen cb L szGe2 v f).2 (L : Int)
      (write_to_gen cb L szGe2 v f).1 (intRepr v)) ∧
    (intRepr v).length ≤ L := by
  have hcast : (((2 : Nat) ^ (w - 1) : Nat) : Int) = (2 : Int) ^ (w - 1) := by
    push_cast
    rfl
  have hna : v.natAbs ≤ 2 ^ (w - 1) := by omega
  have hmono1 : (2 : Int) ^ (w - 1) ≤ 2 ^ (cb - 1) :=
    pow_le_pow_right₀ (by norm_num) (by omega)
  have hmono2 : (2 : Int) ^ (cb - 1) ≤ 2 ^ cb :=
    pow_le_pow_right₀ (by norm_num) (by omega)
  have hp : (0 : Int) < 2 ^ (w - 1) := by positivity
  constructor
  · exact write_to_gen_spec cb L szGe2 v f (by omega) (by omega) (by omega)
      (fun h => lt_of_le_of_lt hna (hfuel h))
      (fun h => lt_of_le_of_lt hna (hsmall h))
  · rw [intRepr_length]
    have hnum : numLen v.natAbs ≤ L - 1 :=
      numLen_le (lt_of_le_of_lt hna hdig) (by omega)
    by_cases h0 : v < 0
    · rw [if_pos h0]
      omega
    · rw [if_neg h0]
      omega

theorem write_to_gen_unsigned (cb L w : Nat) (szGe2 : Bool) (v : Int) (f : Bytes)
    (hw : 1 ≤ w) (hwc : w ≤ cb) (hL : 1 ≤ L)
    (hlo : 0 ≤ v) (hhi : v < 2 ^ w)
    (hdig : (2 : Nat) ^ w ≤ 10 ^ L)
    (hfuel : szGe2 = true → (2 : Nat) ^ w ≤ 10000 ^ L)
    (hsmall : szGe2 = false → (2 : Nat) ^ w ≤ 10000) :
    (textWritten f (write_to_gen cb L szGe2 v f).2 (L : Int)
      (write_to_gen cb L szGe2 v f).1 (intRepr v)) ∧
    (intRepr v).length ≤ L := by
  have hcast : (((2 : Nat) ^ w : Nat) : Int) = (2 : Int) ^ w := by
    push_cast
    rfl
  have hna : v.natAbs < 2 ^ w := by omega
  have hmono2 : (2 : Int) ^ w ≤ 2 ^ cb := pow_le_pow_right₀ (by norm_num) hwc
  have hp : (0 : Int) < 2 ^ (cb - 1) := by positivity
  constructor
  · exact write_to_gen_spec cb L szGe2 v f (by omega) (by omega) (by omega)
      (fun h => lt_of_lt_of_le hna (hfuel h))
      (fun h => lt_of_lt_of_le hna (hsmall h))
  · rw [intRepr_length, if_neg (by omega)]
    have hnum : numLen v.natAbs ≤ L := numLen_le (lt_of_lt_of_le hna hdig) hL
    omega

/-! ### The master per-width specification -/

/-- Correctness of `write_to` for every sealed width: the buffer interval
`[cursor, max_len)` holds exactly the canonical decimal text of `v`, which
always fits in the width's buffer. -/
theorem write_to_spec (t : IntTy) (v : Int) (f : Bytes) (h : inRange t v) :
    textWritten f (write_to t v f).2 ((maxLen t : Nat) : Int) (write_to t v f).1
      (intRepr v) ∧
    (intRepr v).length ≤ maxLen t := by
  cases t with
  | i8 =>
    exact write_to_gen_signed 32 4 8 false v f (by norm_num) (by norm_num) (by norm_num)
      h.1 h.2 (by norm_num) (fun hh => absurd hh (by simp)) (fun _ => by norm_num)
  | u8 =>
    exact write_to_gen_unsigned 32 3 8 false v f (by norm_num) (by norm_num) (by norm_num)
      h.1 h.2 (by norm_num) (fun hh => absurd hh (by simp)) (fun _ => by norm_num)
  | i16 =>
    exact write_to_gen_signed 32 6 16 true v f (by norm_num) (by norm_num) (by norm_num)
      h.1 h.2 (by norm_num) (fun _ => by norm_num) (fun hh => absurd hh (by simp))
  | u16 =>
    exact write_to_gen_unsigned 32 5 16 true v f (by norm_num) (by norm_num) (by norm_num)
      h.1 h.2 (by norm_num) (fun _ => by norm_num) (fun hh => absurd hh (by simp))
  | i32 =>
    exact write_to_gen_signed 32 11 32 true v f (by norm_num) (by norm_num) (by norm_num)
      h.1 h.2 (by norm_num) (fun _ => by norm_num) (fun hh => absurd hh (by simp))
  | u32 =>
    exact write_to_gen_unsigned 32 10 32 true v f (by norm_num) (by norm_num) (by norm_num)
      h.1 h.2 (by norm_num) (fun _ => by norm_num) (fun hh => absurd hh (by simp))
  | i64 =>
    exact write_to_gen_signed 64 20 64 true v f (by norm_num) (by norm_num) (by norm_num)
      h.1 h.2 (by norm_num) (fun _ => by norm_num) (fun hh => absurd hh (by simp))
  | u64 =>
    exact write_to_gen_unsigned 64 20 64 true v f (by norm_num) (by norm_num) (by norm_num)
      h.1 h.2 (by norm_num) (fun _ => by norm_num) (fun hh => absurd hh (by simp))
  | isize =>
    exact write_to_gen_signed 64 20 64 true v f (by norm_num) (by norm_num) (by norm_num)
      h.1 h.2 (by norm_num) (fun _ => by norm_num) (fun hh => absurd hh (by simp))
  | usize =>
    exact write_to_gen_unsigned 64 20 64 true v f (by norm_num) (by norm_num) (by norm_num)
      h.1 h.2 (by norm_num) (fun _ => by norm_num) (fun hh => absurd hh (by simp))
  | i128 =>
    have hb : -(2 ^ 127 : Int) ≤ v ∧ v < 2 ^ 127 := by
      simpa [inRange, loVal, hiVal, signedTy, bitsOf, sizeBytes] using h
    have h1 : (((2 : Nat) ^ 127 : Nat) : Int) = (2 : Int) ^ 127 := by
      push_cast
    have hna : v.natAbs < 10 ^ 39 := by
      have h2 : (2 : Nat) ^ 127 < 10 ^ 39 := by norm_num
      omega
    constructor
    · exact write_to_128_spec_v 40 v f
        (by rw [show ((2 : Int) ^ (128 - 1)) = 2 ^ 127 from by norm_num]; exact hb.1)
        (lt_trans hb.2 (by norm_num)) hna
    · show (intRepr v).length ≤ 40
      rw [intRepr_length]
      have h39 : numLen v.natAbs ≤ 39 := numLen_le hna (by norm_num)
      by_cases h0 : v < 0
      · rw [if_pos h0]
        omega
      · rw [if_neg h0]
        omega
  | u128 =>
    have hb : (0 : Int) ≤ v ∧ v < 2 ^ 128 := by
      simpa [inRange, loVal, hiVal, signedTy, bitsOf, sizeBytes] using h
    have h1 : (((2 : Nat) ^ 128 : Nat) : Int) = (2 : Int) ^ 128 := by
      push_cast
    have hna : v.natAbs < 10 ^ 39 := by
      have h2 : (2 : Nat) ^ 128 < 10 ^ 39 := by norm_num
      omega
    constructor
    · exact write_to_128_spec_v 39 v f
        (le_trans (neg_nonpos.mpr (by positivity)) hb.1) hb.2 hna
    · show (intRepr v).length ≤ 39
      rw [intRepr_length, if_neg (by omega)]
      have h39 : numLen v.natAbs ≤ 39 := numLen_le hna (by norm_num)
      omega

theorem viewI_eq_map_some {g : Bytes} {a b : Int} {bs : List Nat}
    (hlen : (b - a).toNat = bs.length)
    (hbytes : ∀ k : Nat, k < bs.length → g (a + (k : Int)) = some (bs.getD k 0)) :
    viewI g a b = bs.map some := by
  unfold viewI
  rw [hlen]
  refine List.ext_getElem (by simp) ?_
  intro i h1 h2
  simp only [List.getElem_map, List.getElem_range]
  have hi : i < bs.length := by simpa using h2
  rw [hbytes i hi]
  congr 1
  rw [List.getD_eq_getElem?_getD, List.getElem?_eq_getElem hi]
  rfl

theorem viewI_textWritten {f g : Bytes} {L c : Int} {bs : List Nat}
    (h : textWritten f g L c bs) : viewI g c L = bs.map some := by
  obtain ⟨hc, _, bys⟩ := h
  exact viewI_eq_map_some (by omega) bys

/-- The view returned by `Buffer::format` is exactly the canonical decimal
text of the formatted value, independently of the buffer's prior bytes. -/
theorem format_view (t : IntTy) (v : Int) (f : Bytes) (h : inRange t v) :
    ((Buffer.mk f).format t v).1 = (intRepr v).map some :=
  viewI_textWritten (write_to_spec t v f h).1

/-! ### Canonical shape and round-trip of the decimal text -/

theorem decRepr_cons (n : Nat) :
    decRepr n = (48 + n / 10 ^ (numLen n - 1) % 10) :: padDigits n (numLen n - 1) := rfl

theorem decRepr_head_pos {n : Nat} (hn : 1 ≤ n) :
    1 ≤ n / 10 ^ (numLen n - 1) % 10 := by
  have h1 := pow_numLen_pred_le hn
  have h2 := lt_pow_numLen n
  have hq1 : 1 ≤ n / 10 ^ (numLen n - 1) := (Nat.one_le_div_iff (by positivity)).2 h1
  have hq2 : n / 10 ^ (numLen n - 1) < 10 := by
    rw [Nat.div_lt_iff_lt_mul (by positivity)]
    calc n < 10 ^ numLen n := h2
      _ = 10 ^ (numLen n - 1) * 10 := by
          rw [← pow_succ, Nat.sub_add_cancel (numLen_pos n)]
      _ = 10 * 10 ^ (numLen n - 1) := by ring
  rw [Nat.mod_eq_of_lt hq2]
  exact hq1

theorem decRepr_zero : decRepr 0 = [48] := by
  have h1 : numLen 0 = 1 := by simp [numLen]
  unfold decRepr
  rw [h1]
  rfl

theorem intRepr_canonical (v : Int) : canonicalDec v (intRepr v) := by
  unfold canonicalDec
  refine ⟨?_, ?_, ?_, ?_, ?_⟩
  · unfold intRepr
    by_cases h0 : v < 0
    · rw [if_pos h0]
      exact List.cons_ne_nil _ _
    · rw [if_neg h0, decRepr_cons]
      exact List.cons_ne_nil _ _
  · by_cases h0 : v < 0
    · rw [if_pos h0]
      refine ⟨?_, ?_⟩
      · unfold intRepr
        rw [if_pos h0]
        rfl
      · intro b hb
        unfold intRepr at hb
        rw [if_pos h0] at hb
        simp only [List.tail_cons] at hb
        exact padDigits_mem _ _ b hb
    · rw [if_neg h0]
      intro b hb
      unfold intRepr at hb
      rw [if_neg h0] at hb
      exact padDigits_mem _ _ b hb
  · intro hv0
    subst hv0
    unfold intRepr
    rw [if_neg (by omega)]
    show decRepr (0 : Int).toNat = [48]
    rw [show (0 : Int).toNat = 0 from rfl]
    exact decRepr_zero
  · intro hv
    unfold intRepr
    rw [if_neg (by omega), decRepr_cons]
    have hd := decRepr_head_pos (show 1 ≤ v.toNat by omega)
    simp only [List.head?_cons]
    intro hcontra
    rw [Option.some.injEq] at hcontra
    omega
  · intro hv
    unfold intRepr
    rw [if_pos hv]
    simp only [List.tail_cons]
    rw [decRepr_cons]
    simp only [List.head?_cons]
    have hd := decRepr_head_pos (show 1 ≤ (-v).toNat by omega)
    intro hcontra
    rw [Option.some.injEq] at hcontra
    omega

theorem parseDigits_padDigits (x : Nat) : ∀ (len : Nat) (a : Nat),
    (padDigits x len).foldl (fun a b => a * 10 + (b - 48)) a =
      a * 10 ^ len + x % 10 ^ len := by
  intro len
  induction len with
  | zero =>
    intro a
    simp [padDigits, Nat.mod_one]
  | succ len ih =>
    intro a
    show (padDigits x (len + 1)).foldl _ a = _
    rw [padDigits, List.foldl_cons, ih, Nat.add_sub_cancel_left]
    have hmm : x % (10 ^ len * 10) = x % 10 ^ len + 10 ^ len * (x / 10 ^ len % 10) :=
      Nat.mod_mul
    have hps : (10 : Nat) ^ (len + 1) = 10 ^ len * 10 := pow_succ 10 len
    rw [hps, hmm]
    ring

theorem parseDigits_decRepr (n : Nat) : parseDigits (decRepr n) = n := by
  unfold parseDigits decRepr
  rw [parseDigits_padDigits, Nat.zero_mul, Nat.zero_add]
  exact Nat.mod_eq_of_lt (lt_pow_numLen n)

theorem parseInt_decRepr (n : Nat) : parseInt (decRepr n) = (n : Int) := by
  unfold parseInt
  rw [decRepr_cons,
    if_neg (by simp only [List.head?_cons, Option.some.injEq]; omega),
    ← decRepr_cons, parseDigits_decRepr]

theorem parseInt_intRepr (v : Int) : parseInt (intRepr v) = v := by
  unfold intRepr
  by_cases h0 : v < 0
  · rw [if_pos h0]
    unfold parseInt
    rw [if_pos (by simp)]
    simp only [List.tail_cons]
    rw [parseDigits_decRepr]
    omega
  · rw [if_neg h0]
    rw [parseInt_decRepr]
    omega

theorem magU_abs (cb w : Nat) (v : Int) (hw : 1 ≤ w) (hwc : w ≤ cb)
    (hlo : -(2 ^ (w - 1) : Int) ≤ v) (hhi : v < 2 ^ (w - 1)) :
    magU cb v = v.natAbs := by
  have hmono1 : (2 : Int) ^ (w - 1) ≤ 2 ^ (cb - 1) :=
    pow_le_pow_right₀ (by norm_num) (by omega)
  have hmono2 : (2 : Int) ^ (cb - 1) ≤ 2 ^ cb :=
    pow_le_pow_right₀ (by norm_num) (by omega)
  exact magU_eq (by omega) (by omega) (by omega)

theorem reduceOption_map_some (l : List Nat) : (l.map some).reduceOption = l := by
  induction l with
  | nil => rfl
  | cons a t ih => simp [List.reduceOption_cons_of_some, ih]

/-! ### The claims -/

/-- C1: for every supported integer width (i8/u8 through i128/u128, plus
isize/usize) and every value `v` of that width, `format(buffer, v)` returns
the canonical base-10 ASCII text of `v`: a non-empty view whose bytes are
all ASCII digits with at most a single leading `'-'` present exactly when
`v` is negative, and no leading zeros except the single `"0"` when `v` is
zero. -/
theorem format_canonical (t : IntTy) (v : Int) (f : Bytes) (h : inRange t v) :
    ((Buffer.mk f).format t v).1 = (intRepr v).map some ∧
    canonicalDec v (intRepr v) :=
  ⟨format_view t v f h, intRepr_canonical v⟩

theorem format_canonical_witness :
    ((Buffer.mk uninitBytes).format IntTy.i8 (-7)).1 = (intRepr (-7)).map some ∧
    canonicalDec (-7) (intRepr (-7)) :=
  format_canonical IntTy.i8 (-7) uninitBytes (by decide)

/-- C2: for every supported integer value `v`, parsing the text returned by
`format(buffer, v)` with standard decimal integer parsing yields exactly
`v` (round-trip law). -/
theorem format_roundtrip (t : IntTy) (v : Int) (f : Bytes) (h : inRange t v) :
    parseInt (((Buffer.mk f).format t v).1.reduceOption) = v := by
  rw [format_view t v f h, reduceOption_map_some, parseInt_intRepr]

theorem format_roundtrip_witness :
    parseInt (((Buffer.mk uninitBytes).format IntTy.i16 (-1234)).1.reduceOption) = -1234 :=
  format_roundtrip IntTy.i16 (-1234) uninitBytes (by decide)

/-- C3: for every 128-bit unsigned value `n`, the Wide Divisor
`udivmod_1e19 n` returns exactly the pair `(n / 10^19, n % 10^19)`: it is
exact for all inputs with no error condition, and the remainder always fits
in 64 bits.  (The routine's body is modelled from the spec because
`src/udiv128.rs` is referenced by `mod udiv128;` but absent from the
sources.) -/
theorem udivmod_1e19_exact (n : Nat) :
    udivmod_1e19 n = (n / 10 ^ 19, n % 10 ^ 19) ∧
    (udivmod_1e19 n).1 * 10 ^ 19 + (udivmod_1e19 n).2 = n ∧
    (udivmod_1e19 n).2 < 2 ^ 64 := by
  refine ⟨rfl, ?_, ?_⟩
  · show n / 10 ^ 19 * 10 ^ 19 + n % 10 ^ 19 = n
    rw [Nat.mul_comm]
    exact Nat.div_add_mod n (10 ^ 19)
  · show n % 10 ^ 19 < 2 ^ 64
    calc n % 10 ^ 19 < 10 ^ 19 := Nat.mod_lt _ (by positivity)
      _ < 2 ^ 64 := by norm_num

/-- C5: formatting the boundary values produces the exact expected literal
strings: `"0"` for every width; `"-128"` and `"127"` for i8; the
40-character string for `i128::MIN`; and the 39-character string for
`u128::MAX`. -/
theorem format_boundary_values :
    (∀ t : IntTy, (Buffer.new.format t 0).1 = (strBytes "0").map some) ∧
    (Buffer.new.format IntTy.i8 (-128)).1 = (strBytes "-128").map some ∧
    (Buffer.new.format IntTy.i8 127).1 = (strBytes "127").map some ∧
    (Buffer.new.format IntTy.i128 (-(2 ^ 127))).1 =
      (strBytes "-170141183460469231731687303715884105728").map some ∧
    (Buffer.new.format IntTy.u128 (2 ^ 128 - 1)).1 =
      (strBytes "340282366920938463463374607431768211455").map some ∧
    (strBytes "-170141183460469231731687303715884105728").length = 40 ∧
    (strBytes "340282366920938463463374607431768211455").length = 39 :=
  ⟨fun t => by cases t <;> decide, by decide, by decide, by decide, by decide,
   by decide, by decide⟩

/-- C6: for every negative value `v` of every signed width, the unsigned
magnitude computed as the two's-complement negation
`(!(v as conv)).wrapping_add(1)` equals the mathematical absolute value
`-v`, including the most negative value of each width. -/
theorem twos_complement_magnitude (t : IntTy) (v : Int) (hs : signedTy t = true)
    (h : inRange t v) (hneg : v < 0) :
    (magU (convBits t) v : Int) = -v := by
  cases t with
  | i8 =>
    show (magU 32 v : Int) = -v
    rw [magU_abs 32 8 v (by norm_num) (by norm_num) h.1 h.2]
    omega
  | i16 =>
    show (magU 32 v : Int) = -v
    rw [magU_abs 32 16 v (by norm_num) (by norm_num) h.1 h.2]
    omega
  | i32 =>
    show (magU 32 v : Int) = -v
    rw [magU_abs 32 32 v (by norm_num) (by norm_num) h.1 h.2]
    omega
  | i64 =>
    show (magU 64 v : Int) = -v
    rw [magU_abs 64 64 v (by norm_num) (by norm_num) h.1 h.2]
    omega
  | isize =>
    show (magU 64 v : Int) = -v
    rw [magU_abs 64 64 v (by norm_num) (by norm_num) h.1 h.2]
    omega
  | i128 =>
    show (magU 128 v : Int) = -v
    rw [magU_abs 128 128 v (by norm_num) (by norm_num) h.1 h.2]
    omega
  | u8 => exact absurd hs (by simp [signedTy])
  | u16 => exact absurd hs (by simp [signedTy])
  | u32 => exact absurd hs (by simp [signedTy])
  | u64 => exact absurd hs (by simp [signedTy])
  | usize => exact absurd hs (by simp [signedTy])
  | u128 => exact absurd hs (by simp [signedTy])

theorem twos_complement_magnitude_witness :
    (magU (convBits IntTy.i8) (-128) : Int) = -(-128 : Int) :=
  twos_complement_magnitude IntTy.i8 (-128) rfl (by decide) (by decide)

/-- C7: the length of `format(v)` never exceeds the statically declared
maximum-length constant of the width (i8: 4, u8: 3, i16: 6, u16: 5,
i32: 11, u32: 10, i64: 20, u64: 20, u128: 39, i128: 40), and therefore
never exceeds the 40-byte buffer capacity. -/
theorem format_len_le_maxLen (t : IntTy) (v : Int) (f : Bytes) (h : inRange t v) :
    ((Buffer.mk f).format t v).1.length ≤ maxLen t ∧ maxLen t ≤ I128_MAX_LEN ∧
    I8_MAX_LEN = 4 ∧ U8_MAX_LEN = 3 ∧ I16_MAX_LEN = 6 ∧ U16_MAX_LEN = 5 ∧
    I32_MAX_LEN = 11 ∧ U32_MAX_LEN = 10 ∧ I64_MAX_LEN = 20 ∧ U64_MAX_LEN = 20 ∧
    U128_MAX_LEN = 39 ∧ I128_MAX_LEN = 40 := by
  refine ⟨?_, ?_, rfl, rfl, rfl, rfl, rfl, rfl, rfl, rfl, rfl, rfl⟩
  · rw [format_view t v f h, List.length_map]
    exact (write_to_spec t v f h).2
  · cases t <;> decide

theorem format_len_le_maxLen_witness :
    ((Buffer.mk uninitBytes).format IntTy.u64 12345).1.length ≤ maxLen IntTy.u64 ∧
    maxLen IntTy.u64 ≤ I128_MAX_LEN ∧
    I8_MAX_LEN = 4 ∧ U8_MAX_LEN = 3 ∧ I16_MAX_LEN = 6 ∧ U16_MAX_LEN = 5 ∧
    I32_MAX_LEN = 11 ∧ U32_MAX_LEN = 10 ∧ I64_MAX_LEN = 20 ∧ U64_MAX_LEN = 20 ∧
    U128_MAX_LEN = 39 ∧ I128_MAX_LEN = 40 :=
  format_len_le_maxLen IntTy.u64 12345 uninitBytes (by decide)

/-- C8: the view returned by `format` depends only on the formatted value,
never on the buffer's prior contents: formatting `v2` after any earlier
`format(v1)` call on the same buffer returns a view identical to the one a
fresh buffer would give, so no stale bytes leak across reuses. -/
theorem format_no_stale_bytes :
    (∀ (t : IntTy) (v : Int) (f g : Bytes), inRange t v →
      ((Buffer.mk f).format t v).1 = ((Buffer.mk g).format t v).1) ∧
    (∀ (t1 t2 : IntTy) (v1 v2 : Int), inRange t2 v2 →
      ((Buffer.new.format t1 v1).2.format t2 v2).1 = (Buffer.new.format t2 v2).1) := by
  constructor
  · intro t v f g h
    rw [format_view t v f h, format_view t v g h]
  · intro t1 t2 v1 v2 h
    show ((Buffer.mk (write_to t1 v1 uninitBytes).2).format t2 v2).1 =
      ((Buffer.mk uninitBytes).format t2 v2).1
    rw [format_view t2 v2 _ h, format_view t2 v2 _ h]

theorem format_no_stale_bytes_witness :
    ((Buffer.new.format IntTy.u64 18446744073709551615).2.format IntTy.u8 7).1 =
      (Buffer.new.format IntTy.u8 7).1 :=
  format_no_stale_bytes.2 IntTy.u64 IntTy.u8 18446744073709551615 7 (by decide)

/-- C9: `Buffer::clone` (whose body is `Buffer::new()`) and
`Buffer::default` are equivalent to `Buffer::new`: cloning yields a fresh
buffer with uninitialized contents and copies no bytes previously formatted
into the original. -/
theorem buffer_clone_is_new :
    (∀ b : Buffer, b.clone = Buffer.new) ∧
    Buffer.default = Buffer.new ∧
    (∀ b1 b2 : Buffer, b1.clone = b2.clone) ∧
    (∀ b : Buffer, b.clone.bytes = uninitBytes) :=
  ⟨fun _ => rfl, rfl, fun _ _ => rfl, fun _ => rfl⟩

/-- C10: every write performed by `write_to` stays inside the width's
buffer: the final cursor is nonnegative and at most `max_len`, and no byte
outside `[cursor, max_len)` is modified, so the backward-moving cursor never
goes below offset 0 and all pointer writes and the returned sub-slice are in
bounds. -/
theorem write_to_in_bounds (t : IntTy) (v : Int) (f : Bytes) (h : inRange t v) :
    0 ≤ (write_to t v f).1 ∧ (write_to t v f).1 ≤ (maxLen t : Int) ∧
    (∀ j : Int, j < (write_to t v f).1 ∨ (maxLen t : Int) ≤ j →
      (write_to t v f).2 j = f j) := by
  obtain ⟨⟨hc, fr, _⟩, hlen⟩ := write_to_spec t v f h
  exact ⟨by omega, by omega, fr⟩

theorem write_to_in_bounds_witness :
    0 ≤ (write_to IntTy.i128 (-(2 ^ 127)) uninitBytes).1 ∧
    (write_to IntTy.i128 (-(2 ^ 127)) uninitBytes).1 ≤ (maxLen IntTy.i128 : Int) ∧
    (∀ j : Int, j < (write_to IntTy.i128 (-(2 ^ 127)) uninitBytes).1 ∨
        (maxLen IntTy.i128 : Int) ≤ j →
      (write_to IntTy.i128 (-(2 ^ 127)) uninitBytes).2 j = uninitBytes j) :=
  write_to_in_bounds IntTy.i128 (-(2 ^ 127)) uninitBytes (by decide)

/-- C4: for every 128-bit value, the Digit Writer applies the Wide Divisor
at most twice — after two divisions at most one decimal digit remains in
the quotient — peeling 19-digit chunks from the most significant end, and
every chunk that is not the most significant occupies its full fixed
19-digit-wide slot with explicit zero padding, so no intermediate chunk's
leading zeros are dropped: the low chunk's slot `[L-19, L)` holds the
zero-padded low 19 digits, and when a third chunk exists the middle slot
`[L-38, L-19)` holds the zero-padded next 19 digits. -/
theorem write_to_128_chunking (L : Nat) (sgn : Bool) (n : Nat) (f : Bytes)
    (hn : n < 2 ^ 128) :
    (udivmod_1e19 (udivmod_1e19 n).1).1 < 10 ∧
    (10 ^ 19 ≤ n →
      viewI (write_to_128 L sgn n f).2 ((L : Int) - 19) (L : Int) =
        (padDigits (n % 10 ^ 19) 19).map some) ∧
    (10 ^ 38 ≤ n →
      viewI (write_to_128 L sgn n f).2 ((L : Int) - 38) ((L : Int) - 19) =
        (padDigits (n / 10 ^ 19 % 10 ^ 19) 19).map some) := by
  have hn39 : n < 10 ^ 39 := lt_trans hn (by norm_num)
  obtain ⟨hc, frG, byG⟩ := write128_digits L n f hn39
  set G := write128_stage2 L (n / 10 ^ 19)
      (writeDigits true U64_MAX_LEN (n % 10 ^ 19) (L : Int) f).1
      (writeDigits true U64_MAX_LEN (n % 10 ^ 19) (L : Int) f).2 with hG
  have hT : ∀ j : Int, j ≠ G.1 - 1 → (write_to_128 L sgn n f).2 j = G.2 j := by
    intro j hj
    show (signWrap sgn G).2 j = G.2 j
    cases sgn with
    | true => rfl
    | false => exact setB_ne _ _ _ hj
  refine ⟨?_, ?_, ?_⟩
  · show n / 10 ^ 19 / 10 ^ 19 < 10
    rw [Nat.div_div_eq_div_mul, ← pow_add, Nat.div_lt_iff_lt_mul (by positivity)]
    calc n < 10 ^ 39 := hn39
      _ = 10 * 10 ^ (19 + 19) := by norm_num
  · intro h19
    have h20 : 20 ≤ numLen n := by
      by_contra hcon
      push_neg at hcon
      have h1 := lt_pow_numLen n
      have h2 : (10 : Nat) ^ numLen n ≤ 10 ^ 19 :=
        Nat.pow_le_pow_right (by norm_num) (by omega)
      omega
    refine viewI_eq_map_some ?_ ?_
    · rw [padDigits_length]
      omega
    · intro k hk
      rw [padDigits_length] at hk
      rw [hT _ (by omega)]
      have hpos : (L : Int) - 19 + (k : Int) =
          (L : Int) - (numLen n : Int) + ((numLen n - 19 + k : Nat) : Int) := by omega
      rw [hpos, byG _ (by omega), padDigits_getD _ _ _ hk]
      have hexp : numLen n - 1 - (numLen n - 19 + k) = 19 - 1 - k := by omega
      rw [hexp, digit_mod_pow (show 19 - 1 - k < 19 by omega)]
  · intro h38
    have hnl39 : numLen n = 39 := numLen_eq h38 hn39
    refine viewI_eq_map_some ?_ ?_
    · rw [padDigits_length]
      omega
    · intro k hk
      rw [padDigits_length] at hk
      rw [hT _ (by omega)]
      have hpos : (L : Int) - 38 + (k : Int) =
          (L : Int) - (numLen n : Int) + ((1 + k : Nat) : Int) := by omega
      rw [hpos, byG _ (by omega), padDigits_getD _ _ _ hk]
      rw [digit_mod_pow (show 19 - 1 - k < 19 by omega),
        Nat.div_div_eq_div_mul, ← pow_add]
      have hexp : numLen n - 1 - (1 + k) = 19 + (19 - 1 - k) := by omega
      rw [hexp]

theorem write_to_128_chunking_witness :
    ((udivmod_1e19 (udivmod_1e19 (10 ^ 19)).1).1 < 10 ∧
    (10 ^ 19 ≤ 10 ^ 19 →
      viewI (write_to_128 39 true (10 ^ 19) uninitBytes).2 (((39 : Nat) : Int) - 19)
          ((39 : Nat) : Int) =
        (padDigits (10 ^ 19 % 10 ^ 19) 19).map some) ∧
    (10 ^ 38 ≤ 10 ^ 19 →
      viewI (write_to_128 39 true (10 ^ 19) uninitBytes).2 (((39 : Nat) : Int) - 38)
          (((39 : Nat) : Int) - 19) =
        (padDigits (10 ^ 19 / 10 ^ 19 % 10 ^ 19) 19).map some)) :=
  write_to_128_chunking 39 true (10 ^ 19) uninitBytes (by norm_num)

end Itoa
